import Mathlib

/-!
Verification development for the stompclient repository.

The definitions below are a shallow embedding of the STOMP frame codec in
`stomp/frame.py` (class `Frame`, class `FrameBuffer`) and of the duplex
client in `stompclient/duplex.py` (class `QueueingDuplexClient`).

Modelling conventions:
* a Python byte string is a `List Char` (`Bytes`); all data in the repo is
  byte-oriented Python 2 `str`;
* a Python dict is an insertion-ordered association list; assigning to an
  existing key replaces the value in place, assigning a fresh key appends
  (`dictSet`); `dict` equality compares key sets and the values looked up
  per key (`dictEq`);
* a header value in a dict can be a byte string or an `int` (`Frame.pack`
  stores `len(body)`, an int, under `content-length`); `HVal` keeps the two
  apart exactly as Python does, where `5 == '5'` is false;
* raising `FrameError` is `Except.error ()`;
* Python regexes are modelled by equivalent recursive scans, keeping the
  Python 2 semantics that `.` does not match a newline.
-/

deriving instance DecidableEq for Except

/-- Python byte strings: lists of (byte-sized) characters. -/
abbrev Bytes := List Char

/-- The newline byte. -/
def nlC : Char := '\n'

/-- The frame terminator byte `\x00`. -/
def nulC : Char := '\x00'

/-- Python's whitespace class `\s` for `str` (also what `strip()` removes):
space, tab, newline, carriage return, vertical tab, form feed. -/
def isPyWs (c : Char) : Bool :=
  c = ' ' || c = '\t' || c = '\n' || c = '\r' || c = '\x0b' || c = '\x0c'

/-- Python `str.lstrip()`. -/
def lstripB (b : Bytes) : Bytes := b.dropWhile isPyWs

/-- Python `str.strip()`: drop whitespace from both ends. -/
def stripB (b : Bytes) : Bytes :=
  ((b.dropWhile isPyWs).reverse.dropWhile isPyWs).reverse

/-- Python `str.upper()` on Python 2 byte strings: ASCII-only uppercasing. -/
def upperB (b : Bytes) : Bytes := b.map Char.toUpper

/-- The list `VALID_COMMANDS` from `stomp/frame.py`. -/
def VALIDB : List Bytes :=
  [("ABORT").toList, ("ACK").toList, ("BEGIN").toList, ("COMMIT").toList,
   ("CONNECT").toList, ("CONNECTED").toList, ("DISCONNECT").toList,
   ("MESSAGE").toList, ("SEND").toList, ("SUBSCRIBE").toList,
   ("UNSUBSCRIBE").toList, ("RECEIPT").toList, ("ERROR").toList]

/-- A header value as stored in the Python dict: either a byte string or an
int (`Frame.pack` writes `headers['content-length'] = len(body)`, an int).
In Python 2 an int never compares equal to a str. -/
inductive HVal where
  | bs (s : Bytes)
  | iv (n : Nat)
deriving DecidableEq, Repr

/-- A headers dict: insertion-ordered association list. -/
abbrev Headers := List (Bytes × HVal)

/-- Python `d[k] = v`: replace in place if the key exists, else append. -/
def dictSet (h : Headers) (k : Bytes) (v : HVal) : Headers :=
  if h.any (fun kv => kv.1 = k) then
    h.map (fun kv => if kv.1 = k then (k, v) else kv)
  else h ++ [(k, v)]

/-- Python `d[k]` / `d.get(k)`: value at the key, if present. -/
def dictGet? (h : Headers) (k : Bytes) : Option HVal :=
  (h.find? (fun kv => kv.1 = k)).map (fun kv => kv.2)

/-- Python dict equality: same keys, same value at every key. -/
def dictEq (a b : Headers) : Bool :=
  a.all (fun kv => dictGet? b kv.1 = some kv.2) &&
  b.all (fun kv => dictGet? a kv.1 = some kv.2)

/-- The `Frame` value: command (validated, may be `None`), headers, body. -/
structure Frame where
  command : Option Bytes
  headers : Headers
  body : Bytes
deriving DecidableEq, Repr

/-- Constructor `Frame.__init__` via the `command` property setter `_set_cmd`: a non-None
command is uppercased and must be in `VALID_COMMANDS`, else `FrameError`. -/
def mkFrame (cmd : Bytes) (h : Headers) (body : Bytes) : Except Unit Frame :=
  let u := upperB cmd
  if u ∈ VALIDB then .ok (Frame.mk (some u) h body) else .error ()

/-- The rename `name.replace('_', '-')` as used by `Frame.__getattr__`. -/
def underToDash (b : Bytes) : Bytes := b.map (fun c => if c = '_' then '-' else c)

/-- Method `Frame.__getattr__`: look the name up in the headers dict; on `KeyError`
fall back to `headers.get(name.replace('_','-'))`, which yields `None` when
absent.  (Names starting with `_` raise `AttributeError`; no claim uses
such a name.) -/
def getattrF (f : Frame) (name : Bytes) : Option HVal :=
  match dictGet? f.headers name with
  | some v => some v
  | none => dictGet? f.headers (underToDash name)

/-- Method `Frame.__eq__`: compares `self.cmd` (an attribute that does not exist, so
it goes through `__getattr__`), the headers dicts, and the bodies. -/
def frameEq (a b : Frame) : Bool :=
  (getattrF a (("cmd").toList) = getattrF b (("cmd").toList)) &&
  dictEq a.headers b.headers && (a.body = b.body)

/-- Rendering `str(value)` / `"%s" % value` for a header value. -/
def hvRender : HVal → Bytes
  | .bs s => s
  | .iv n => (toString n).toList

/-- Rendering `"%s" % command` where command may be `None`. -/
def renderCmd : Option Bytes → Bytes
  | some c => c
  | none => ("None").toList

/-- The serialized header block: one `"k:v\n"` line per entry, in the order
of the given association list.  CPython 2's `headers.iteritems()` iterates
the dict's hash table in slot order, not insertion order; `py2IterOrder`
below composes that interpreter order where the emitted byte sequence
itself is at stake.  The theorems that apply `packBytes` directly either
pack a single header entry (where the two orders agree byte-for-byte) or
state order-insensitive conclusions. -/
def headerLines (h : Headers) : Bytes :=
  (h.map (fun kv => kv.1 ++ [':'] ++ hvRender kv.2 ++ [nlC])).flatten

/-- The headers dict after `Frame.pack` ran: `headers['content-length'] =
len(body)` (an int) merged in. -/
def packHeaders (f : Frame) : Headers :=
  dictSet f.headers (("content-length").toList) (HVal.iv f.body.length)

/-- Method `Frame.pack`: `"%s\n%s\n%s\x00" % (command, joined header lines, body)`,
with the `content-length` header set (always) to `len(body)` first. -/
def packBytes (f : Frame) : Bytes :=
  renderCmd f.command ++ [nlC] ++ headerLines (packHeaders f) ++ [nlC] ++
  f.body ++ [nulC]

/-- The mutation `Frame.pack` performs on its frame: after `pack(f)` the
object `f` carries the int-valued `content-length` header. -/
def packFrame (f : Frame) : Frame :=
  { f with headers := packHeaders f }

/-- The CPython 2 string hash (unrandomized, 64-bit build), as an unsigned
value mod `2^64`: `x = s[0] << 7`, then `x = (1000003*x) ^ ch` over every
byte, `x ^= len(s)`, and `-1` is mapped to `-2`.  (The algorithm reproduces
CPython 2's `hash('a') == 12416037344`; the two header keys of the C8
scenario land in the same slots on 32-bit builds as well.) -/
def py2StrHash (b : Bytes) : Nat :=
  match b with
  | [] => 0
  | c :: _ =>
    let x0 := (c.toNat * 128) % 2 ^ 64
    let x1 := b.foldl (fun a ch => ((1000003 * a) % 2 ^ 64) ^^^ ch.toNat) x0
    let x2 := x1 ^^^ b.length
    if x2 = 2 ^ 64 - 1 then 2 ^ 64 - 2 else x2

/-- The CPython 2 open-addressing probe (`lookdict`): the first candidate
slot is `hash & 7`; while the candidate is occupied, `i = 5*i + perturb +
1` (mod `2^64`) with `perturb` starting at the hash and shifted right by 5
each step, and the slot is `i & 7`.  Fuel-bounded; 64 probes far exceed
what an 8-slot table can need. -/
def findSlotAux : Nat → Nat → Nat → List Nat → Nat
  | 0, i, _, _ => i % 8
  | fuel + 1, i, perturb, occ =>
    if (i % 8) ∈ occ then
      findSlotAux fuel ((5 * i + perturb + 1) % 2 ^ 64) (perturb / 32) occ
    else i % 8

/-- The slot a key obtains when inserted with the given slots occupied. -/
def py2FindSlot (occ : List Nat) (h : Nat) : Nat :=
  findSlotAux 64 (h % 8) h occ

/-- Slot assignment for a small dict's entries, inserted in association-list
order into the initial 8-slot table. -/
def py2SlotsAux : Headers → List Nat → List ((Bytes × HVal) × Nat)
  | [], _ => []
  | kv :: rest, occ =>
    let s := py2FindSlot occ (py2StrHash kv.1)
    ((kv, s)) :: py2SlotsAux rest (s :: occ)

/-- The iteration order of a CPython 2 dict built by inserting the entries
in association-list order: ascending hash-table slot (`PyDict_Next` walks
the table from slot 0 upward).  Faithful for dicts that never outgrow the
initial 8-slot table, i.e. at most 5 entries. -/
def py2IterOrder (h : Headers) : Headers :=
  let asn := py2SlotsAux h []
  (List.range 8).filterMap (fun s => (asn.find? (fun p => p.2 = s)).map (fun p => p.1))

/-- Method `Frame.pack` with the byte order the interpreter actually
produces: `headers.iteritems()` yields the entries in CPython 2 hash-slot
order, not insertion order. -/
def packBytesPy2 (f : Frame) : Bytes :=
  renderCmd f.command ++ [nlC] ++ headerLines (py2IterOrder (packHeaders f)) ++ [nlC] ++
  f.body ++ [nulC]

/-- Match of `command_re = re.compile('^(.+?)\n')`: succeeds iff the buffer
has a newline at an index ≥ 1 (Python 2 `.` does not match `\n`), and
captures the text before the first newline. -/
def cmdOf (b : Bytes) : Option Bytes :=
  match b.findIdx? (fun c => c = nlC) with
  | none => none
  | some 0 => none
  | some i => some (b.take i)

/-- Match of `sync_re = re.compile('^.*?\x00')`: the index of the first
`\x00`, provided it occurs before the first newline (`.` cannot cross a
`\n`); `none` when the first line has no terminator byte. -/
def nulBeforeNl (b : Bytes) : Option Nat :=
  (b.takeWhile (fun c => c ≠ nlC)).findIdx? (fun c => c = nulC)

/-- The `while True` loop of `FrameBuffer.sync_buffer`, with structural fuel;
each strip removes at least one byte, so fuel = buffer length suffices (the
fuel-0 case is unreachable: it would need a non-empty buffer of length 0). -/
def syncFuel : Nat → Bytes → Bytes
  | 0, b => b
  | fuel + 1, b =>
    if b = [] then b
    else
      match cmdOf b with
      | none => b
      | some cmd =>
        if cmd ∈ VALIDB then b
        else
          match nulBeforeNl b with
          | some k => syncFuel fuel (b.drop (k + 1))
          | none => []

/-- Method `FrameBuffer.sync_buffer`: while the buffer starts with a complete line
that is not a valid command, strip through the first-line terminator byte
if `sync_re` matches, else clear the whole buffer. -/
def sync_buffer (b : Bytes) : Bytes := syncFuel b.length b

/-- First index of the substring `"\n\n"` (`str.index('\n\n')`). -/
def fdn : Bytes → Option Nat
  | [] => none
  | [_] => none
  | a :: b :: rest =>
    if a = nlC ∧ b = nlC then some 0
    else (fdn (b :: rest)).map (· + 1)

/-- Decimal value of a digit run (`int(...)`). -/
def digitsVal (ds : Bytes) : Nat :=
  ds.foldl (fun a c => a * 10 + (c.toNat - 48)) 0

/-- The part of `content_length_re` after the literal `content-length`:
`\s*:\s*(\d+)\s*(\n|$)` with backtracking semantics. -/
def clAfterKey (r : Bytes) : Option Nat :=
  match r.dropWhile isPyWs with
  | ':' :: r2 =>
    let r3 := r2.dropWhile isPyWs
    let ds := r3.takeWhile Char.isDigit
    if ds = [] then none
    else
      let r4 := r3.drop ds.length
      let w := r4.takeWhile isPyWs
      if w.contains nlC || w.length = r4.length then some (digitsVal ds)
      else none
  | _ => none

/-- Attempted match of `content_length_re` at the head of `b`: requires a
leading `\n` followed by the literal `content-length`. -/
def clHere (b : Bytes) : Option Nat :=
  match b with
  | '\n' :: r =>
    if r.take 14 = ("content-length").toList then clAfterKey (r.drop 14)
    else none
  | _ => none

/-- Search `content_length_re.search`: leftmost match over the header bytes. -/
def clSearch : Bytes → Option Nat
  | [] => none
  | c :: r =>
    match clHere (c :: r) with
    | some n => some n
    | none => clSearch r

/-- Method `FrameBuffer._find_message_bytes`.  `data` is the argument the caller
passed (`self.buffer` at call time); `sync_buffer` reassigns `self.buffer`,
so `_hdr = self.buffer[:i]` reads the synced buffer `newBuf` while the
`index` and `len` calls still see the stale `data`. -/
def find_message_bytes (newBuf data : Bytes) : Nat × Nat :=
  match fdn data with
  | none => (0, 0)
  | some i =>
    match clSearch (newBuf.take i) with
    | some n =>
      let req := i + 2 + n + 1
      if data.length < req then (0, 0) else (req, i)
    | none =>
      match data.findIdx? (fun c => c = nulC) with
      | none => (0, 0)
      | some j => (j + 1, i)

/-- Line split `hdata.split('\n')` (always at least one element). -/
def splitNl (b : Bytes) : List Bytes :=
  match b with
  | [] => [[]]
  | c :: rest =>
    if c = nlC then [] :: splitNl rest
    else
      match splitNl rest with
      | h :: t => (c :: h) :: t
      | [] => [[c]]

/-- Python `e.split(':', 1)`: split at the first colon; `none` when there is no
colon (the `ValueError` branch that `extract_message` skips). -/
def splitFirstColon (e : Bytes) : Option (Bytes × Bytes) :=
  match e.findIdx? (fun c => c = ':') with
  | none => none
  | some i => some (e.take i, e.drop (i + 1))

/-- One iteration of the header-parsing loop of `extract_message`: a `k:v`
line is split at the first colon, stripped, and assigned into the dict
(lines without a colon are skipped). -/
def parseHeaderLine (acc : Headers) (e : Bytes) : Headers :=
  match splitFirstColon e with
  | none => acc
  | some kv => dictSet acc (stripB kv.1) (HVal.bs (stripB kv.2))

/-- The header-parsing loop of `extract_message` over the header lines. -/
def parseHeaderLines (ls : List Bytes) : Headers :=
  ls.foldl parseHeaderLine []

/-- The parsing tail of `extract_message` (lines 442-462): lstrip the header
bytes, split lines, first line is the command, parse the rest into the
dict, body is `msgdata[hbytes+2:-1]`, and build the `Frame` (whose command
setter may raise `FrameError`). -/
def parseMsg (msgdata : Bytes) (hbytes : Nat) : Except Unit Frame :=
  let hdata := lstripB (msgdata.take hbytes)
  let elems := splitNl hdata
  let cmd := elems.headD []
  let headers := parseHeaderLines (elems.drop 1)
  let body := (msgdata.take (msgdata.length - 1)).drop (hbytes + 2)
  mkFrame cmd headers body

/-- Method `FrameBuffer.extract_message` on a buffer: returns the extracted frame
(or `none`) and the new buffer contents, or the raised `FrameError`.
`data` is bound to the buffer before `sync_buffer` runs inside
`_find_message_bytes`, while the slicing afterwards uses the synced
buffer. -/
def extract_message (buf : Bytes) : Except Unit (Option Frame × Bytes) :=
  let data := buf
  let b1 := sync_buffer buf
  let r := find_message_bytes b1 data
  if r.1 = 0 then .ok (none, b1)
  else
    let msgdata := b1.take r.1
    let rest := b1.drop r.1
    match parseMsg msgdata r.2 with
    | .ok f => .ok (some f, rest)
    | .error e => .error e

/-- Repeated `extract_message` (the `__iter__`/`next` drain loop of the
read loop), with fuel; each successful extraction consumes at least one
byte, so `buffer length + 1` fuel always suffices. -/
def drainFuel : Nat → Bytes → Except Unit (List Frame × Bytes)
  | 0, b => .ok ([], b)
  | fuel + 1, b =>
    match extract_message b with
    | .error e => .error e
    | .ok (none, b1) => .ok ([], b1)
    | .ok (some f, b1) =>
      match drainFuel fuel b1 with
      | .error e => .error e
      | .ok (fs, b2) => .ok (f :: fs, b2)

/-- Drain every complete frame currently in the buffer. -/
def drainAll (b : Bytes) : Except Unit (List Frame × Bytes) :=
  drainFuel (b.length + 1) b

/-- The read loop over a list of socket reads: append each chunk to the
buffer, drain all complete frames, and continue; the frames come out in
stream order. -/
def feedChunks : List Bytes → Bytes → Except Unit (List Frame × Bytes)
  | [], b => .ok ([], b)
  | c :: cs, b =>
    match drainAll (b ++ c) with
    | .error e => .error e
    | .ok (fs1, b1) =>
      match feedChunks cs b1 with
      | .error e => .error e
      | .ok (fs2, b2) => .ok (fs1 ++ fs2, b2)

/-- Feeding a chunk sequence to a fresh `FrameBuffer`. -/
def feedAll (cs : List Bytes) : Except Unit (List Frame × Bytes) :=
  feedChunks cs []

/-!  The duplex client (`stompclient/duplex.py`). -/

/-- The four delivery queues of `QueueingDuplexClient`. -/
structure Queues where
  connected : List Frame
  message : List Frame
  receipt : List Frame
  errors : List Frame
deriving DecidableEq, Repr

/-- Test `frame.destination in self.subscribed_destinations`: the dynamic
attribute is `None` or a header value; only an equal byte string is in the
set of subscribed destination strings. -/
def inSubs (v : Option HVal) (subs : List Bytes) : Bool :=
  match v with
  | some (.bs d) => subs.any (fun s => s = d)
  | some (.iv _) => false
  | none => false

/-- One iteration of the frame-classification chain in
`QueueingDuplexClient.listener_forever` (lines 92-105). -/
def dispatch (subs : List Bytes) (q : Queues) (f : Frame) : Queues :=
  if f.command = some (("RECEIPT").toList) then
    { q with receipt := q.receipt ++ [f] }
  else if f.command = some (("MESSAGE").toList) then
    if inSubs (getattrF f (("destination").toList)) subs then
      { q with message := q.message ++ [f] }
    else q
  else if f.command = some (("ERROR").toList) then
    { q with errors := q.errors ++ [f] }
  else if f.command = some (("CONNECTED").toList) then
    { q with connected := q.connected ++ [f] }
  else q

/-- Frame `UnsubscribeFrame(destination=d)` for a non-empty destination. -/
def unsubFrame (d : Bytes) : Frame :=
  Frame.mk (some (("UNSUBSCRIBE").toList)) [((("destination").toList), HVal.bs d)] []

/-- Observable side effects of `QueueingDuplexClient.disconnect`. -/
inductive Act where
  | sendF (f : Frame)
  | setShutdown
  | connDisconnect
deriving DecidableEq, Repr

/-- The unsubscribe loop over the snapshot of `subscribed_destinations`:
each destination sends an `UNSUBSCRIBE` frame; an empty destination makes
`UnsubscribeFrame.__init__` raise `ValueError` (`not destination and not
id`), which aborts the loop (the boolean records whether it completed). -/
def unsubActs : List Bytes → (List Act × Bool)
  | [] => ([], true)
  | d :: rest =>
    if d = [] then ([], false)
    else
      let r := unsubActs rest
      (Act.sendF (unsubFrame d) :: r.1, r.2)

/-- Method `QueueingDuplexClient.disconnect` (lines 124-137): unsubscribe from a
copy of the subscribed set, set the shutdown event in the `finally` block,
and call `self.connection.disconnect()` (which only closes the socket);
when the unsubscribe loop raised, the uncaught error propagates before the
connection is closed. -/
def disconnect_trace (subs : List Bytes) : List Act :=
  let r := unsubActs subs
  r.1 ++ [Act.setShutdown] ++ (if r.2 then [Act.connDisconnect] else [])

/-- Does an action send a frame carrying the given command? -/
def sendsCommand (a : Act) (c : Bytes) : Bool :=
  match a with
  | .sendF f => f.command = some c
  | _ => false


/-!  General dictionary lemmas. -/

/-- After the in-place replacement `dictSet` performs when the key is
present, the key is found with the new value. -/
theorem find_map_set (t : Headers) (k : Bytes) (v : HVal)
    (ha : t.any (fun kv => kv.1 = k) = true) :
    (t.map (fun kv => if kv.1 = k then (k, v) else kv)).find?
      (fun kv => kv.1 = k) = some (k, v) := by
  induction t with
  | nil => exact absurd ha Bool.false_ne_true
  | cons kv t ih =>
    by_cases hk : kv.1 = k
    · simp [List.find?_cons, hk]
    · simp only [List.any_cons] at ha
      rw [decide_eq_false hk, Bool.false_or] at ha
      simp only [List.map_cons, if_neg hk, List.find?_cons]
      rw [decide_eq_false hk]
      exact ih ha

/-- Appending a fresh key, as `dictSet` does when the key is absent, makes
it found with the new value. -/
theorem find_append_new (t : Headers) (k : Bytes) (v : HVal)
    (ha : t.any (fun kv => kv.1 = k) = false) :
    (t ++ [(k, v)]).find? (fun kv => kv.1 = k) = some (k, v) := by
  rw [List.find?_append]
  have hnone : t.find? (fun kv => decide (kv.1 = k)) = none := by
    rw [List.find?_eq_none]
    intro x hx
    simp only [decide_eq_true_eq]
    have := List.any_eq_false.mp (by exact_mod_cast ha) x hx
    simpa using this
  simp [hnone]

/-- Setting a key makes it present with the assigned value. -/
theorem dictGet_dictSet (h : Headers) (k : Bytes) (v : HVal) :
    dictGet? (dictSet h k v) k = some v := by
  by_cases ha : h.any (fun kv => kv.1 = k)
  · simp only [dictSet, ha, if_true, dictGet?, find_map_set h k v ha, Option.map_some']
  · have ha' : h.any (fun kv => kv.1 = k) = false := Bool.eq_false_iff.mpr ha
    simp only [dictSet, ha']
    rw [if_neg (by decide)]
    simp only [dictGet?, find_append_new h k v ha', Option.map_some']

/-- With duplicate-free keys, every entry is what lookup finds. -/
theorem find_of_mem_nodup (l : Headers) (kv : Bytes × HVal)
    (hnd : (l.map Prod.fst).Nodup) (hm : kv ∈ l) :
    l.find? (fun x => x.1 = kv.1) = some kv := by
  induction l with
  | nil => exact absurd hm (List.not_mem_nil kv)
  | cons a t ih =>
    simp only [List.map_cons, List.nodup_cons] at hnd
    rcases List.mem_cons.mp hm with h | h
    · subst h
      simp [List.find?_cons]
    · have hne : a.1 ≠ kv.1 := by
        intro he
        exact hnd.1 (he ▸ List.mem_map_of_mem Prod.fst h)
      simp only [List.find?_cons, hne, decide_False]
      exact ih hnd.2 h

/-- A dict equals itself under Python dict equality when its keys are
duplicate-free. -/
theorem dictEq_refl (l : Headers) (hnd : (l.map Prod.fst).Nodup) :
    dictEq l l = true := by
  have h1 : l.all (fun kv => dictGet? l kv.1 = some kv.2) = true := by
    rw [List.all_eq_true]
    intro kv hm
    simp only [dictGet?, find_of_mem_nodup l kv hnd hm, Option.map_some', decide_eq_true_eq]
  simp [dictEq, h1]

/-!  Claim C1: resync on the spec's corruption-recovery scenario. -/

/-- C1 (code evaluation at the failing input): on the buffer
`b"GARBAGE\ndata\x00" + encode(validFrame)` the terminator byte does occur
in the buffer, yet `sync_buffer` discards the *entire* buffer — the
`sync_re` pattern `^.*?\x00` cannot cross the newline after `GARBAGE`
(Python `.` does not match `\n`), so nothing is stripped and the whole
buffer (including the valid frame) is cleared — and the subsequent
`extract_message` raises `FrameError` (from stale indices computed against
the pre-sync bytes) instead of returning the valid frame. -/
theorem c1_sync_discards_valid_frame :
    (("GARBAGE\ndata\x00").toList ++
        packBytes (Frame.mk (some (("SEND").toList)) [] [])).contains nulC = true ∧
    sync_buffer (("GARBAGE\ndata\x00").toList ++
        packBytes (Frame.mk (some (("SEND").toList)) [] [])) = [] ∧
    extract_message (("GARBAGE\ndata\x00").toList ++
        packBytes (Frame.mk (some (("SEND").toList)) [] [])) = .error () :=
  ⟨by decide, by decide, by decide⟩

/-!  Claim C6: extraction can raise on input the resync phase discarded. -/

/-- C6 (code evaluation at the failing input): the buffer
`b"BAD\nx\n\nbody\x00"` is wholly corrupt; `sync_buffer` discards all of it,
yet `extract_message` still raises `FrameError`: `_find_message_bytes` was
passed the pre-sync buffer, finds the stale `\n\n` and `\x00` offsets in
it, and the parse of the now-empty buffer produces an empty command, which
the `Frame` constructor rejects. -/
theorem c6_extract_raises_after_resync_discard :
    sync_buffer (("BAD\nx\n\nbody\x00").toList) = [] ∧
    extract_message (("BAD\nx\n\nbody\x00").toList) = .error () :=
  ⟨by decide, by decide⟩

/-!  Claim C2, counterexample part. -/

/-- C2 (counterexample): one byte string, two chunkings, different results.
For `s = b"BAD\n" + encode(f)` feeding the two chunks `b"BAD\n"` and
`encode(f)` separately extracts the valid frame, while feeding `s` at once
lets the resync pass clear the whole buffer and the stale-index parse then
raises `FrameError` — so chunked delivery invariance fails for arbitrary
byte strings. -/
theorem c2_counterexample :
    feedAll [("BAD\n").toList, packBytes (Frame.mk (some (("SEND").toList)) [] [])] ≠
      feedAll [("BAD\n").toList ++ packBytes (Frame.mk (some (("SEND").toList)) [] [])] := by
  decide

/-!  Claim C7, counterexample part. -/

/-- C7 (counterexample): decoding a wire frame whose header block repeats
the key `a` (`a:1` then `a:2`) retains the *last* occurrence (`'2'`), not
the first: the parse loop executes `headers[k] = v` per line, and the
later assignment overwrites the earlier one. -/
theorem c7_counterexample :
    extract_message (("MESSAGE\na:1\na:2\n\n\x00").toList) =
      .ok (some (Frame.mk (some (("MESSAGE").toList))
        [((("a").toList), HVal.bs (("2").toList))] []), []) := by
  decide

/-!  Claim C8: what `Frame.pack` produces. -/

/-- C8 (counterexample): two falsities of the claim at concrete inputs.
Packing `Frame('SEND', {}, b'')` — no length framing requested, no
`content-length` header present — still emits a `content-length` header
rather than the terminator-only form (`pack` takes no framing-mode
parameter).  And packing the spec's SEND scenario does NOT yield the
insertion-ordered bytes the claim states: CPython 2 iterates
`headers.iteritems()` in hash-slot order, and `content-length` (slot 2)
precedes `destination` (slot 3). -/
theorem c8_counterexample :
    packBytesPy2 (Frame.mk (some (("SEND").toList)) [] []) =
      ("SEND\ncontent-length:0\n\n\x00").toList ∧
    packBytesPy2 (Frame.mk (some (("SEND").toList)) [] []) ≠
      ("SEND\n\n\x00").toList ∧
    packBytesPy2 (Frame.mk (some (("SEND").toList))
        [((("destination").toList), HVal.bs (("/queue/a").toList))]
        (("hello").toList)) ≠
      ("SEND\ndestination:/queue/a\ncontent-length:5\n\nhello\x00").toList :=
  ⟨by decide, by decide, by decide⟩

/-- C8 (amended): `pack` produces `COMMAND\n`, then one `key:value\n` line
per header in the dict's iteration order — CPython 2 hash-slot order, not
insertion order — then `\n`, the body, and the terminator byte, with a
`content-length` header equal to `len(body)` always inserted (overwriting
any existing value); the spec's concrete SEND scenario therefore emits
`SEND\ncontent-length:5\ndestination:/queue/a\n\nhello\x00`, and for
every frame the packed headers carry `content-length = len(body)`. -/
theorem c8_amended :
    packBytesPy2 (Frame.mk (some (("SEND").toList))
        [((("destination").toList), HVal.bs (("/queue/a").toList))]
        (("hello").toList)) =
      ("SEND\ncontent-length:5\ndestination:/queue/a\n\nhello\x00").toList ∧
    ∀ f : Frame, dictGet? (packFrame f).headers (("content-length").toList) =
      some (HVal.iv f.body.length) := by
  refine ⟨by decide, ?_⟩
  intro f
  exact dictGet_dictSet f.headers _ _

/-!  Claim C9: what `QueueingDuplexClient.disconnect` does. -/

/-- The unsubscribe loop sends only `UNSUBSCRIBE` frames. -/
theorem unsubActs_no_disconnect (subs : List Bytes) :
    ((unsubActs subs).1).all
      (fun a => !(sendsCommand a (("DISCONNECT").toList))) = true := by
  induction subs with
  | nil => rfl
  | cons d rest ih =>
    by_cases hd : d = []
    · simp [unsubActs, hd]
    · have hs : sendsCommand (Act.sendF (unsubFrame d)) (("DISCONNECT").toList) = false := by
        simp only [sendsCommand, unsubFrame]
        rfl
      simp only [unsubActs, if_neg hd, List.all_cons, ih, Bool.and_true, hs]
      decide

/-- C9 (code evaluation): for every subscribed-destinations snapshot, the
side effects of `disconnect` are the `UNSUBSCRIBE` sends, the shutdown
signal, and the socket close — no action sends a `DISCONNECT` frame
(`self.connection.disconnect()` only closes the socket), although the
repository's own `test_duplex.test_disconnect` asserts one is sent. -/
theorem c9_no_disconnect_frame (subs : List Bytes) :
    (disconnect_trace subs).all
      (fun a => !(sendsCommand a (("DISCONNECT").toList))) = true := by
  unfold disconnect_trace
  rw [List.all_append, List.all_append]
  rw [unsubActs_no_disconnect subs]
  rcases (unsubActs subs).2 with _ | _ <;> decide

/-!  Claim C10: `Frame.__eq__` never sees the command. -/

/-- C10: `Frame.__eq__` compares the attribute `cmd`, which is not a field;
`__getattr__` resolves it to `headers.get('cmd')`, i.e. `None` on both
sides when neither frame has a `'cmd'` header — so two frames with equal
headers dicts and equal bodies compare equal even with different
commands. -/
theorem c10_eq_ignores_command (c1 c2 : Option Bytes) (h1 h2 : Headers) (b : Bytes)
    (hc1 : dictGet? h1 (("cmd").toList) = none)
    (hc2 : dictGet? h2 (("cmd").toList) = none)
    (hh : dictEq h1 h2 = true) :
    frameEq (Frame.mk c1 h1 b) (Frame.mk c2 h2 b) = true := by
  have hud : underToDash (("cmd").toList) = ("cmd").toList := by decide
  simp only [frameEq, getattrF, hud, hc1, hc2, hh, Bool.and_true, Bool.true_and]
  simp

/-- C10 (witness): two concrete frames with different commands, equal
headers and equal bodies are `==`. -/
theorem c10_witness :
    frameEq (Frame.mk (some (("SEND").toList)) [((("destination").toList), HVal.bs (("/queue/a").toList))] [])
      (Frame.mk (some (("ACK").toList)) [((("destination").toList), HVal.bs (("/queue/a").toList))] []) = true :=
  c10_eq_ignores_command _ _ _ _ _ (by decide) (by decide) (by decide)

/-!  Facts about the valid-command table (finite checks). -/

/-- Every valid command is non-empty. -/
theorem valid_ne_nil : ∀ c ∈ VALIDB, c ≠ [] := by decide

/-- No valid command contains a newline. -/
theorem valid_no_nl : ∀ c ∈ VALIDB, nlC ∉ c := by decide

/-- Valid commands are fixed points of `upper()`. -/
theorem valid_upper : ∀ c ∈ VALIDB, upperB c = c := by decide

/-- Valid commands start with a non-whitespace byte. -/
theorem valid_head_not_ws : ∀ c ∈ VALIDB, ∀ x ∈ c.take 1, isPyWs x = false := by
  decide

/-!  Scanning lemmas. -/

/-- Lemma: `findIdx?` locates the first occurrence of a byte placed right after a
run that avoids it. -/
theorem findIdx_append_elem (x : Char) (c r : Bytes) (hx : x ∉ c) :
    (c ++ x :: r).findIdx? (fun y => y = x) = some c.length := by
  induction c with
  | nil => simp [List.findIdx?_cons]
  | cons a as ih =>
    have hax : a ≠ x := by
      intro h
      exact hx (h ▸ List.mem_cons_self a as)
    have hx' : x ∉ as := fun h => hx (List.mem_cons_of_mem a h)
    simp only [List.cons_append, List.findIdx?_cons, decide_eq_true_eq]
    rw [if_neg hax, List.findIdx?_succ, ih hx']
    simp

/-- A byte-run without the sought byte yields no `findIdx?` hit. -/
theorem findIdx_none_of_not_mem (x : Char) (c : Bytes) (hx : x ∉ c) :
    c.findIdx? (fun y => y = x) = none := by
  rw [List.findIdx?_eq_none_iff]
  intro y hy
  simp only [decide_eq_false_iff_not]
  intro h
  exact hx (h ▸ hy)

/-- Pattern `command_re` on a buffer headed by a newline-free non-empty line. -/
theorem cmdOf_line (c r : Bytes) (hne : c ≠ []) (hnl : nlC ∉ c) :
    cmdOf (c ++ nlC :: r) = some c := by
  rw [cmdOf, findIdx_append_elem nlC c r hnl]
  have hl : c.length ≠ 0 := fun h => hne (List.length_eq_zero.mp h)
  cases hc : c.length with
  | zero => exact absurd hc hl
  | succ m =>
    simp only []
    rw [← hc, List.take_left]

/-- Pattern `command_re` fails on a newline-free buffer. -/
theorem cmdOf_no_nl (b : Bytes) (hnl : nlC ∉ b) : cmdOf b = none := by
  rw [cmdOf, findIdx_none_of_not_mem nlC b hnl]

/-!  `sync_buffer` no-op cases. -/

/-- The resync loop leaves a buffer alone when its first line is a valid
command. -/
theorem syncFuel_valid_head (fuel : Nat) (c r : Bytes)
    (hc : c ∈ VALIDB) : syncFuel fuel (c ++ nlC :: r) = c ++ nlC :: r := by
  cases fuel with
  | zero => rfl
  | succ m =>
    rw [syncFuel]
    have hne : c ++ nlC :: r ≠ [] := by
      intro h
      exact List.cons_ne_nil nlC r (List.append_eq_nil.mp h).2
    rw [if_neg hne, cmdOf_line c r (valid_ne_nil c hc) (valid_no_nl c hc)]
    dsimp only
    rw [if_pos hc]

/-- Loop `sync_buffer` leaves a buffer alone when its first line is a valid
command. -/
theorem sync_buffer_valid_head (c r : Bytes) (hc : c ∈ VALIDB) :
    sync_buffer (c ++ nlC :: r) = c ++ nlC :: r :=
  syncFuel_valid_head _ c r hc

/-- The resync loop leaves a newline-free buffer alone (insufficient data
to judge). -/
theorem syncFuel_no_nl (fuel : Nat) (b : Bytes) (hnl : nlC ∉ b) :
    syncFuel fuel b = b := by
  cases fuel with
  | zero => rfl
  | succ m =>
    rw [syncFuel]
    by_cases hne : b = []
    · rw [if_pos hne]
    · rw [if_neg hne, cmdOf_no_nl b hnl]

/-- Loop `sync_buffer` leaves a newline-free buffer alone. -/
theorem sync_buffer_no_nl (b : Bytes) (hnl : nlC ∉ b) : sync_buffer b = b :=
  syncFuel_no_nl _ b hnl

/-!  Lemmas about the `\n\n` scan. -/

/-- A hit of the `\n\n` scan leaves room for the two newlines. -/
theorem fdn_bound (b : Bytes) (i : Nat) (h : fdn b = some i) :
    i + 2 ≤ b.length := by
  induction b generalizing i with
  | nil => simp [fdn] at h
  | cons x xs ih =>
    cases xs with
    | nil => simp [fdn] at h
    | cons y ys =>
      rw [fdn] at h
      by_cases hxy : x = nlC ∧ y = nlC
      · rw [if_pos hxy] at h
        cases h
        simp only [List.length_cons]
        omega
      · rw [if_neg hxy, Option.map_eq_some'] at h
        obtain ⟨j, hj, hji⟩ := h
        have hb := ih j hj
        simp only [List.length_cons] at hb ⊢
        omega

/-- A hit of the `\n\n` scan survives appending more bytes. -/
theorem fdn_append (a t : Bytes) (i : Nat) (h : fdn a = some i) :
    fdn (a ++ t) = some i := by
  induction a generalizing i with
  | nil => simp [fdn] at h
  | cons x xs ih =>
    cases xs with
    | nil => simp [fdn] at h
    | cons y ys =>
      rw [fdn] at h
      rw [List.cons_append, List.cons_append, fdn]
      by_cases hxy : x = nlC ∧ y = nlC
      · rw [if_pos hxy] at h ⊢
        exact h
      · rw [if_neg hxy] at h ⊢
        rw [Option.map_eq_some'] at h
        obtain ⟨j, hj, hji⟩ := h
        rw [← List.cons_append, ih j hj]
        simpa using hji

/-- What the `\n\n` scan sees of a truncated buffer: the same hit when the
two newlines are inside the kept part, nothing otherwise. -/
theorem fdn_take (a : Bytes) (i : Nat) (h : fdn a = some i) (m : Nat) :
    fdn (a.take m) = if i + 2 ≤ m then some i else none := by
  induction a generalizing i m with
  | nil => simp [fdn] at h
  | cons x xs ih =>
    cases xs with
    | nil => simp [fdn] at h
    | cons y ys =>
      rw [fdn] at h
      match m with
      | 0 =>
        simp only [List.take_zero, fdn]
        rw [if_neg (by omega)]
      | 1 =>
        simp only [List.take_succ_cons, List.take_zero, fdn]
        rw [if_neg (by omega)]
      | Nat.succ (Nat.succ m') =>
        rw [List.take_succ_cons, List.take_succ_cons]
        by_cases hxy : x = nlC ∧ y = nlC
        · rw [if_pos hxy] at h
          cases h
          rw [fdn, if_pos hxy, if_pos (by omega)]
        · rw [if_neg hxy, Option.map_eq_some'] at h
          obtain ⟨j, hj, hji⟩ := h
          have hts : (y :: ys).take (m' + 1) = y :: ys.take m' :=
            List.take_succ_cons
          rw [fdn, if_neg hxy, ← hts, ih j hj (m' + 1)]
          by_cases hle : j + 2 ≤ m' + 1
          · rw [if_pos hle, if_pos (by omega)]
            simpa using hji
          · rw [if_neg hle, if_neg (by omega)]
            rfl

/-- A newline-free buffer has no `\n\n`. -/
theorem fdn_no_nl (b : Bytes) (hnl : nlC ∉ b) : fdn b = none := by
  induction b with
  | nil => rfl
  | cons x xs ih =>
    cases xs with
    | nil => rfl
    | cons y ys =>
      have hx : x ≠ nlC := by
        intro h
        exact hnl (h ▸ List.mem_cons_self x (y :: ys))
      have h' : nlC ∉ y :: ys := fun h => hnl (List.mem_cons_of_mem x h)
      rw [fdn, if_neg (fun hc => hx hc.1), ih h']
      rfl

/-- Where the `\n\n` scan hits, two newlines stand. -/
theorem fdn_sound (b : Bytes) (i : Nat) (h : fdn b = some i) :
    ∃ r, b.drop i = nlC :: nlC :: r := by
  induction b generalizing i with
  | nil => simp [fdn] at h
  | cons x xs ih =>
    cases xs with
    | nil => simp [fdn] at h
    | cons y ys =>
      rw [fdn] at h
      by_cases hxy : x = nlC ∧ y = nlC
      · rw [if_pos hxy] at h
        cases h
        exact ⟨ys, by rw [hxy.1, hxy.2, List.drop_zero]⟩
      · rw [if_neg hxy, Option.map_eq_some'] at h
        obtain ⟨j, hj, hji⟩ := h
        obtain ⟨r, hr⟩ := ih j hj
        exact ⟨r, by rw [← hji, List.drop_succ_cons, hr]⟩

/-!  Line-split and strip lemmas. -/

/-- Python `split('\n')` of a newline-free string is that string alone. -/
theorem splitNl_no_nl (c : Bytes) (hnl : nlC ∉ c) : splitNl c = [c] := by
  induction c with
  | nil => rfl
  | cons x xs ih =>
    have hx : x ≠ nlC := by
      intro h
      exact hnl (h ▸ List.mem_cons_self x xs)
    have h' : nlC ∉ xs := fun h => hnl (List.mem_cons_of_mem x h)
    rw [splitNl, if_neg hx, ih h']

/-- Python `split('\n')` splits off a leading newline-free line. -/
theorem splitNl_append_line (c r : Bytes) (hnl : nlC ∉ c) :
    splitNl (c ++ nlC :: r) = c :: splitNl r := by
  induction c with
  | nil => simp [splitNl]
  | cons x xs ih =>
    have hx : x ≠ nlC := by
      intro h
      exact hnl (h ▸ List.mem_cons_self x xs)
    have h' : nlC ∉ xs := fun h => hnl (List.mem_cons_of_mem x h)
    rw [List.cons_append, splitNl, if_neg hx, ih h']

/-- Python `lstrip()` keeps a string headed by non-whitespace. -/
theorem lstripB_cons_not_ws (x : Char) (xs : Bytes) (hx : isPyWs x = false) :
    lstripB (x :: xs) = x :: xs := by
  rw [lstripB, List.dropWhile_cons_of_neg (by rw [hx]; exact Bool.false_ne_true)]

/-- A valid command is a cons cell headed by non-whitespace. -/
theorem valid_shape (c : Bytes) (hc : c ∈ VALIDB) :
    ∃ ch ct, c = ch :: ct ∧ isPyWs ch = false := by
  cases hv : c with
  | nil => exact absurd hv (valid_ne_nil c hc)
  | cons ch ct =>
    refine ⟨ch, ct, rfl, ?_⟩
    have := valid_head_not_ws c hc ch
    rw [hv] at this
    exact this (by simp [List.take_succ_cons])

/-!  The content-length extraction path of `extract_message`. -/

/-- With a valid command line, a located `\n\n`, and a content-length hit,
but fewer buffered bytes than the computed span, extraction returns `None`
and leaves the buffer unchanged. -/
theorem extract_cl_short (c rest : Bytes) (i n : Nat) (hc : c ∈ VALIDB)
    (hi : fdn (c ++ nlC :: rest) = some i)
    (hn : clSearch ((c ++ nlC :: rest).take i) = some n)
    (hlen : (c ++ nlC :: rest).length < i + 2 + n + 1) :
    extract_message (c ++ nlC :: rest) = .ok (none, c ++ nlC :: rest) := by
  have hsync := sync_buffer_valid_head c rest hc
  have hfind : find_message_bytes (c ++ nlC :: rest) (c ++ nlC :: rest) = (0, 0) := by
    rw [find_message_bytes, hi]
    dsimp only
    rw [hn]
    dsimp only
    rw [if_pos hlen]
  rw [extract_message]
  dsimp only
  rw [hsync, hfind]
  rfl

/-- With a valid command line, a located `\n\n` at `i`, a content-length hit
`n`, and at least `i + 2 + n + 1` buffered bytes, extraction consumes
exactly that span: the command is the first line, the body is exactly the
`n` bytes after the blank line (whatever bytes they are), and the
remainder stays buffered. -/
theorem extract_cl_general (c rest : Bytes) (i n : Nat) (hc : c ∈ VALIDB)
    (hi : fdn (c ++ nlC :: rest) = some i)
    (hn : clSearch ((c ++ nlC :: rest).take i) = some n)
    (hlen : i + 2 + n + 1 ≤ (c ++ nlC :: rest).length) :
    extract_message (c ++ nlC :: rest) =
      .ok (some (Frame.mk (some c)
            (parseHeaderLines
              ((splitNl (lstripB ((c ++ nlC :: rest).take i))).drop 1))
            (((c ++ nlC :: rest).drop (i + 2)).take n)),
        (c ++ nlC :: rest).drop (i + 2 + n + 1)) := by
  have hsync := sync_buffer_valid_head c rest hc
  have hfind : find_message_bytes (c ++ nlC :: rest) (c ++ nlC :: rest) =
      (i + 2 + n + 1, i) := by
    rw [find_message_bytes, hi]
    dsimp only
    rw [hn]
    dsimp only
    rw [if_neg (by omega)]
  -- the `\n\n` cannot start inside the newline-free command
  have hci : c.length ≤ i := by
    by_contra hlt
    push_neg at hlt
    obtain ⟨r', hr'⟩ := fdn_sound _ i hi
    rw [List.drop_append_eq_append_drop] at hr'
    have hz : i - c.length = 0 := by omega
    rw [hz, List.drop_zero] at hr'
    have hd : c.drop i ≠ [] := by
      intro h
      have := congrArg List.length h
      simp only [List.length_drop, List.length_nil] at this
      omega
    obtain ⟨ch, ct, hct⟩ := List.exists_cons_of_ne_nil hd
    rw [hct, List.cons_append] at hr'
    have hchnl : ch = nlC := (List.cons.injEq _ _ _ _).mp hr' |>.1
    have hmem : ch ∈ c := List.drop_subset i c (hct ▸ List.mem_cons_self ch ct)
    exact valid_no_nl c hc (hchnl ▸ hmem)
  -- the header bytes before the blank line
  have htake : (c ++ nlC :: rest).take i =
      c ++ ((nlC :: rest).take (i - c.length)) := by
    rw [List.take_append_eq_append_take, List.take_of_length_le hci]
  -- the command parsed out of the header bytes is `c`
  have hcmd : (splitNl (lstripB ((c ++ nlC :: rest).take i))).headD [] = c := by
    obtain ⟨ch, ct, hshape, hws⟩ := valid_shape c hc
    rcases Nat.eq_or_lt_of_le hci with heq | hlt
    · rw [htake, ← heq, Nat.sub_self, List.take_zero, List.append_nil, hshape,
        lstripB_cons_not_ws ch ct hws, ← hshape,
        splitNl_no_nl c (valid_no_nl c hc)]
      rfl
    · obtain ⟨k, hk⟩ : ∃ k, i - c.length = k + 1 :=
        ⟨i - c.length - 1, by omega⟩
      rw [htake, hk, List.take_succ_cons]
      have hs1 : c ++ nlC :: List.take k rest =
          (ch :: ct) ++ nlC :: List.take k rest := by rw [hshape]
      rw [hs1, List.cons_append,
        lstripB_cons_not_ws ch _ hws, ← List.cons_append, ← hshape,
        splitNl_append_line c _ (valid_no_nl c hc)]
      rfl
  rw [extract_message]
  dsimp only
  rw [hsync, hfind]
  rw [if_neg (show ¬((i + 2 + n + 1, i).1 = 0) from Nat.succ_ne_zero _)]
  have hmin : min i (i + 2 + n + 1) = i := by omega
  have hlt1 : ((c ++ nlC :: rest).take (i + 2 + n + 1)).length = i + 2 + n + 1 := by
    rw [List.length_take]
    omega
  rw [parseMsg]
  rw [List.take_take, hmin, hcmd, hlt1]
  have hbody : (((c ++ nlC :: rest).take (i + 2 + n + 1)).take (i + 2 + n + 1 - 1)).drop (i + 2) =
      ((c ++ nlC :: rest).drop (i + 2)).take n := by
    rw [List.take_take]
    have hm2 : min (i + 2 + n + 1 - 1) (i + 2 + n + 1) = i + 2 + n := by omega
    rw [hm2, List.drop_take]
    have hm3 : i + 2 + n - (i + 2) = n := by omega
    rw [hm3]
  rw [hbody, mkFrame]
  dsimp only
  rw [valid_upper c hc, if_pos hc]

/-- C3: whenever the bytes before the first `\n\n` (at offset `i`) of a
buffer that starts with a valid command line contain a content-length
header with value `n`, the frame's total span is exactly `i + 2 + n + 1`
bytes: extraction returns `None` (buffer unchanged) when fewer bytes are
buffered, and otherwise returns a frame whose body is exactly the `n`
bytes after the blank line — whatever bytes (including `\x00` and `\n`)
they contain — leaving the rest buffered. -/
theorem c3_content_length_framing (c rest : Bytes) (i n : Nat)
    (hc : c ∈ VALIDB)
    (hi : fdn (c ++ nlC :: rest) = some i)
    (hn : clSearch ((c ++ nlC :: rest).take i) = some n) :
    ((c ++ nlC :: rest).length < i + 2 + n + 1 →
      extract_message (c ++ nlC :: rest) = .ok (none, c ++ nlC :: rest)) ∧
    (i + 2 + n + 1 ≤ (c ++ nlC :: rest).length →
      ∃ hdrs, extract_message (c ++ nlC :: rest) =
        .ok (some (Frame.mk (some c) hdrs
              (((c ++ nlC :: rest).drop (i + 2)).take n)),
          (c ++ nlC :: rest).drop (i + 2 + n + 1))) :=
  ⟨fun hl => extract_cl_short c rest i n hc hi hn hl,
   fun hl => ⟨_, extract_cl_general c rest i n hc hi hn hl⟩⟩

/-- C3 (witness): a concrete length-framed frame whose 5-byte body embeds
both `\x00` and `\n` is extracted binary-safely. -/
theorem c3_content_length_framing_witness :
    ((("SEND").toList ++ nlC :: (("content-length:5\n\na\x00b\nc\x00").toList)).length <
        21 + 2 + 5 + 1 →
      extract_message (("SEND").toList ++ nlC :: (("content-length:5\n\na\x00b\nc\x00").toList)) =
        .ok (none, ("SEND").toList ++ nlC :: (("content-length:5\n\na\x00b\nc\x00").toList))) ∧
    (21 + 2 + 5 + 1 ≤ (("SEND").toList ++ nlC :: (("content-length:5\n\na\x00b\nc\x00").toList)).length →
      ∃ hdrs, extract_message (("SEND").toList ++ nlC :: (("content-length:5\n\na\x00b\nc\x00").toList)) =
        .ok (some (Frame.mk (some (("SEND").toList)) hdrs
              (((("SEND").toList ++ nlC :: (("content-length:5\n\na\x00b\nc\x00").toList)).drop (21 + 2)).take 5)),
          (("SEND").toList ++ nlC :: (("content-length:5\n\na\x00b\nc\x00").toList)).drop (21 + 2 + 5 + 1))) :=
  c3_content_length_framing (("SEND").toList) (("content-length:5\n\na\x00b\nc\x00").toList)
    21 5 (by decide) (by decide) (by decide)

/-- On a strict front-truncation of a buffer whose content-length span is
its exact length, extraction returns `None` and changes nothing. -/
theorem extract_cl_pref (c rest : Bytes) (i n m : Nat) (hc : c ∈ VALIDB)
    (hi : fdn (c ++ nlC :: rest) = some i)
    (hn : clSearch ((c ++ nlC :: rest).take i) = some n)
    (hreq : (c ++ nlC :: rest).length = i + 2 + n + 1)
    (hm : m < (c ++ nlC :: rest).length) :
    extract_message ((c ++ nlC :: rest).take m) =
      .ok (none, (c ++ nlC :: rest).take m) := by
  by_cases hmc : m ≤ c.length
  · -- still inside the command: no newline buffered yet
    have hp : (c ++ nlC :: rest).take m = c.take m := by
      rw [List.take_append_eq_append_take]
      have hz : m - c.length = 0 := by omega
      rw [hz, List.take_zero, List.append_nil]
    have hnl : nlC ∉ c.take m := fun hmem =>
      valid_no_nl c hc (List.take_subset m c hmem)
    rw [hp, extract_message]
    dsimp only
    rw [sync_buffer_no_nl _ hnl]
    have hfind : find_message_bytes (c.take m) (c.take m) = (0, 0) := by
      rw [find_message_bytes, fdn_no_nl _ hnl]
    rw [hfind]
    rfl
  · push_neg at hmc
    obtain ⟨k, hk⟩ : ∃ k, m - c.length = k + 1 := ⟨m - c.length - 1, by omega⟩
    have hp : (c ++ nlC :: rest).take m = c ++ nlC :: rest.take k := by
      rw [List.take_append_eq_append_take, List.take_of_length_le (by omega),
        hk, List.take_succ_cons]
    have hsync : sync_buffer ((c ++ nlC :: rest).take m) =
        (c ++ nlC :: rest).take m := by
      rw [hp]
      exact sync_buffer_valid_head c _ hc
    have hfdn : fdn ((c ++ nlC :: rest).take m) =
        if i + 2 ≤ m then some i else none := fdn_take _ i hi m
    have hplen : ((c ++ nlC :: rest).take m).length = m := by
      rw [List.length_take]
      omega
    by_cases hi2 : i + 2 ≤ m
    · rw [if_pos hi2] at hfdn
      have htt : ((c ++ nlC :: rest).take m).take i = (c ++ nlC :: rest).take i := by
        rw [List.take_take]
        have : min i m = i := by omega
        rw [this]
      have hfind : find_message_bytes ((c ++ nlC :: rest).take m)
          ((c ++ nlC :: rest).take m) = (0, 0) := by
        rw [find_message_bytes, hfdn]
        dsimp only
        rw [htt, hn]
        dsimp only
        rw [if_pos (by omega)]
      rw [extract_message]
      dsimp only
      rw [hsync, hfind]
      rfl
    · rw [if_neg hi2] at hfdn
      have hfind : find_message_bytes ((c ++ nlC :: rest).take m)
          ((c ++ nlC :: rest).take m) = (0, 0) := by
        rw [find_message_bytes, hfdn]
      rw [extract_message]
      dsimp only
      rw [hsync, hfind]
      rfl

/-!  Well-formed encodings: frames whose packed bytes the scanner handles
exactly. -/

/-- The offset of the `\n\n` blank line in `packBytes f`: command, its
newline, and the header block minus that block's final newline. -/
def encBoundary (f : Frame) : Nat :=
  (renderCmd f.command).length + (headerLines (packHeaders f)).length

/-- A frame is cleanly encodable when it has a valid command and the
scanners read its own encoding back exactly: the first `\n\n` of
`packBytes f` sits at the header/body boundary, and the content-length
scan of the header bytes yields `len(body)`. -/
def encClean (f : Frame) : Bool :=
  match f.command with
  | none => false
  | some c =>
    decide (c ∈ VALIDB) &&
    decide (fdn (packBytes f) = some (encBoundary f)) &&
    decide (clSearch ((packBytes f).take (encBoundary f)) = some f.body.length)

/-- The frame `extract_message` produces from `packBytes f`: same command
and body, headers re-parsed from the wire text. -/
def decFrame (f : Frame) : Frame :=
  Frame.mk f.command
    (parseHeaderLines
      ((splitNl (lstripB ((packBytes f).take (encBoundary f)))).drop 1))
    f.body

/-- Unpacking `encClean`. -/
theorem encClean_spec (f : Frame) (h : encClean f = true) :
    ∃ c, f.command = some c ∧ c ∈ VALIDB ∧
      fdn (packBytes f) = some (encBoundary f) ∧
      clSearch ((packBytes f).take (encBoundary f)) = some f.body.length := by
  cases hcmd : f.command with
  | none => rw [encClean, hcmd] at h; exact absurd h Bool.false_ne_true
  | some c =>
    rw [encClean, hcmd] at h
    simp only [Bool.and_eq_true, decide_eq_true_eq] at h
    exact ⟨c, rfl, h.1.1, h.1.2, h.2⟩

/-- Length bookkeeping for a packed frame. -/
theorem packBytes_length (f : Frame) (c : Bytes) (hcmd : f.command = some c) :
    (packBytes f).length = encBoundary f + 2 + f.body.length + 1 := by
  rw [packBytes, encBoundary, hcmd]
  simp only [renderCmd, List.length_append, List.length_cons, List.length_nil]
  omega

/-- The packed bytes in command-line shape. -/
theorem packBytes_shape (f : Frame) (c : Bytes) (hcmd : f.command = some c) :
    packBytes f = c ++ nlC :: (headerLines (packHeaders f) ++ nlC :: (f.body ++ [nulC])) := by
  rw [packBytes, hcmd]
  simp only [renderCmd, List.append_assoc, List.singleton_append, List.cons_append,
    List.nil_append]

/-- A frame's packed bytes followed by anything: `extract_message` slices
off exactly the packed frame, decodes it to `decFrame f`, and leaves the
trailing bytes buffered. -/
theorem extract_message_enc (f : Frame) (t : Bytes) (hc : encClean f = true) :
    extract_message (packBytes f ++ t) = .ok (some (decFrame f), t) := by
  obtain ⟨c, hcmd, hcv, hfd, hcl⟩ := encClean_spec f hc
  have hBlen := packBytes_length f c hcmd
  have hshape := packBytes_shape f c hcmd
  have hshape2 : packBytes f ++ t =
      c ++ nlC :: (headerLines (packHeaders f) ++ nlC :: (f.body ++ [nulC]) ++ t) := by
    rw [hshape]
    simp [List.append_assoc]
  have hile : encBoundary f ≤ (packBytes f).length := by omega
  have htke : (packBytes f ++ t).take (encBoundary f) =
      (packBytes f).take (encBoundary f) := by
    rw [List.take_append_eq_append_take]
    have hz : encBoundary f - (packBytes f).length = 0 := by omega
    rw [hz, List.take_zero, List.append_nil]
  have hi' : fdn (packBytes f ++ t) = some (encBoundary f) :=
    fdn_append _ t _ hfd
  have hn' : clSearch ((packBytes f ++ t).take (encBoundary f)) =
      some f.body.length := by rw [htke, hcl]
  have hlen' : encBoundary f + 2 + f.body.length + 1 ≤ (packBytes f ++ t).length := by
    have h2 : (packBytes f ++ t).length = (packBytes f).length + t.length :=
      List.length_append _ _
    omega
  have hmain := extract_cl_general c
    (headerLines (packHeaders f) ++ nlC :: (f.body ++ [nulC]) ++ t)
    (encBoundary f) f.body.length hcv
    (by rw [← hshape2]; exact hi') (by rw [← hshape2]; exact hn')
    (by rw [← hshape2]; exact hlen')
  rw [← hshape2] at hmain
  rw [hmain]
  -- body slice: drop past command/newline/headers/newline, keep `len(body)`
  have hx : packBytes f ++ t =
      (c ++ nlC :: headerLines (packHeaders f) ++ [nlC]) ++ (f.body ++ (nulC :: t)) := by
    rw [hshape]
    simp [List.append_assoc]
  have hxlen : (c ++ nlC :: headerLines (packHeaders f) ++ [nlC]).length =
      encBoundary f + 2 := by
    simp only [List.length_append, List.length_cons, List.length_nil,
      encBoundary, renderCmd, hcmd]
    omega
  have hbody : ((packBytes f ++ t).drop (encBoundary f + 2)).take f.body.length =
      f.body := by
    rw [hx, ← hxlen, List.drop_left, List.take_left]
  have hrest : (packBytes f ++ t).drop (encBoundary f + 2 + f.body.length + 1) = t := by
    rw [← hBlen, List.drop_left]
  rw [hbody, hrest, decFrame, htke, hcmd]

/-- A strict front-truncation of a packed frame: `extract_message` returns
`None` and leaves the buffer unchanged. -/
theorem extract_message_enc_pref (f : Frame) (m : Nat) (hc : encClean f = true)
    (hm : m < (packBytes f).length) :
    extract_message ((packBytes f).take m) =
      .ok (none, (packBytes f).take m) := by
  obtain ⟨c, hcmd, hcv, hfd, hcl⟩ := encClean_spec f hc
  have hBlen := packBytes_length f c hcmd
  have hshape := packBytes_shape f c hcmd
  have := extract_cl_pref c (headerLines (packHeaders f) ++ nlC :: (f.body ++ [nulC]))
    (encBoundary f) f.body.length m hcv
    (by rw [← hshape]; exact hfd) (by rw [← hshape]; exact hcl)
    (by rw [← hshape]; omega) (by rw [← hshape]; omega)
  rw [← hshape] at this
  exact this

/-!  Draining well-formed streams. -/

/-- A buffer state that holds no complete frame: empty, or a strict front
part of some cleanly-encodable frame's bytes. -/
def PartialEnc (p : Bytes) : Prop :=
  p = [] ∨ ∃ g m, encClean g = true ∧ m < (packBytes g).length ∧
    p = (packBytes g).take m

/-- Extraction on a no-complete-frame buffer yields nothing and keeps it. -/
theorem extract_message_on_partial_buf (p : Bytes) (hp : PartialEnc p) :
    extract_message p = .ok (none, p) := by
  rcases hp with rfl | ⟨g, m, hg, hm, rfl⟩
  · rfl
  · exact extract_message_enc_pref g m hg hm

/-- Packed frames occupy at least one byte. -/
theorem packBytes_len_pos (f : Frame) : 0 < (packBytes f).length := by
  rw [packBytes]
  simp

/-- A stream has at least as many bytes as frames. -/
theorem flatten_len_ge (gs : List Frame) :
    gs.length ≤ ((gs.map packBytes).flatten).length := by
  induction gs with
  | nil => simp
  | cons g gs' ih =>
    simp only [List.map_cons, List.flatten_cons, List.length_append,
      List.length_cons]
    have := packBytes_len_pos g
    omega

/-- Draining a stream of packed clean frames followed by a no-frame tail
returns exactly those frames, decoded, and leaves the tail. -/
theorem drainFuel_stream (gs : List Frame) (p : Bytes) (fuel : Nat)
    (hg : ∀ g ∈ gs, encClean g = true) (hp : PartialEnc p)
    (hfuel : gs.length < fuel) :
    drainFuel fuel ((gs.map packBytes).flatten ++ p) =
      .ok (gs.map decFrame, p) := by
  induction gs generalizing fuel with
  | nil =>
    cases fuel with
    | zero => omega
    | succ m =>
      simp only [List.map_nil, List.flatten_nil, List.nil_append]
      rw [drainFuel, extract_message_on_partial_buf p hp]
  | cons g gs' ih =>
    cases fuel with
    | zero => omega
    | succ m =>
      have hbuf : ((g :: gs').map packBytes).flatten ++ p =
          packBytes g ++ ((gs'.map packBytes).flatten ++ p) := by
        simp [List.flatten_cons, List.append_assoc]
      rw [hbuf, drainFuel,
        extract_message_enc g _ (hg g (List.mem_cons_self g gs'))]
      dsimp only
      rw [ih m (fun x hx => hg x (List.mem_cons_of_mem g hx))
          (by simp only [List.length_cons] at hfuel; omega)]
      rfl

/-- Running `drainAll` on such a buffer. -/
theorem drainAll_stream (gs : List Frame) (p : Bytes)
    (hg : ∀ g ∈ gs, encClean g = true) (hp : PartialEnc p) :
    drainAll ((gs.map packBytes).flatten ++ p) = .ok (gs.map decFrame, p) := by
  rw [drainAll]
  apply drainFuel_stream gs p _ hg hp
  have h1 := flatten_len_ge gs
  have h2 : ((gs.map packBytes).flatten ++ p).length =
      ((gs.map packBytes).flatten).length + p.length := List.length_append _ _
  omega

/-- Splitting an arbitrary front part of a stream of packed clean frames
into whole packed frames plus a no-frame remainder. -/
theorem stream_decompose (gs : List Frame) :
    ∀ s u : Bytes, (∀ g ∈ gs, encClean g = true) →
    s ++ u = (gs.map packBytes).flatten →
    ∃ gs1 gs2 p, gs = gs1 ++ gs2 ∧
      s = ((gs1.map packBytes).flatten) ++ p ∧ PartialEnc p ∧
      p ++ u = (gs2.map packBytes).flatten := by
  induction gs with
  | nil =>
    intro s u _ heq
    simp only [List.map_nil, List.flatten_nil] at heq
    obtain ⟨hs, hu⟩ := List.append_eq_nil.mp heq
    exact ⟨[], [], [], rfl, by simp [hs], Or.inl rfl, by simp [hs, hu]⟩
  | cons g gs' ih =>
    intro s u hg heq
    simp only [List.map_cons, List.flatten_cons] at heq
    by_cases hsl : s.length < (packBytes g).length
    · refine ⟨[], g :: gs', s, rfl, by simp, ?_, ?_⟩
      · refine Or.inr ⟨g, s.length, hg g (List.mem_cons_self g gs'), hsl, ?_⟩
        have h1 : s = (s ++ u).take s.length := by
          rw [List.take_left]
        rw [heq] at h1
        rw [List.take_append_eq_append_take] at h1
        have hz : s.length - (packBytes g).length = 0 := by omega
        rw [hz, List.take_zero, List.append_nil] at h1
        exact h1
      · simp only [List.map_cons, List.flatten_cons]
        rw [heq]
    · push_neg at hsl
      have hpg : s.take (packBytes g).length = packBytes g := by
        have h1 : s.take (packBytes g).length = (s ++ u).take (packBytes g).length := by
          rw [List.take_append_eq_append_take]
          have hz : (packBytes g).length - s.length = 0 := by omega
          rw [hz, List.take_zero, List.append_nil]
        rw [h1, heq, List.take_left]
      have hs : s = packBytes g ++ s.drop (packBytes g).length := by
        conv_lhs => rw [← List.take_append_drop ((packBytes g).length) s]
        rw [hpg]
      have hs' : s.drop (packBytes g).length ++ u = (gs'.map packBytes).flatten := by
        refine List.append_cancel_left (?_ : packBytes g ++ _ = packBytes g ++ _)
        rw [← List.append_assoc, ← hs, heq]
      obtain ⟨gs1, gs2, p, hgs, hsq, hpp, hrest⟩ :=
        ih (s.drop (packBytes g).length) u
          (fun x hx => hg x (List.mem_cons_of_mem g hx)) hs'
      refine ⟨g :: gs1, gs2, p, by rw [hgs]; rfl, ?_, hpp, hrest⟩
      rw [hs, hsq]
      simp [List.flatten_cons, List.append_assoc]

/-- The chunked read loop over any chunking of a stream of packed clean
frames, started from a no-frame buffer completing that stream, delivers
exactly the decoded frames and ends with an empty buffer. -/
theorem feedChunks_stream (cs : List Bytes) :
    ∀ (gs : List Frame) (p : Bytes),
    (∀ g ∈ gs, encClean g = true) → PartialEnc p →
    p ++ cs.flatten = (gs.map packBytes).flatten →
    feedChunks cs p = .ok (gs.map decFrame, []) := by
  induction cs with
  | nil =>
    intro gs p hg hp heq
    simp only [List.flatten_nil, List.append_nil] at heq
    cases gs with
    | nil =>
      simp only [List.map_nil, List.flatten_nil] at heq
      rw [heq]
      rfl
    | cons h rest =>
      exfalso
      have h1 : extract_message p = .ok (none, p) := extract_message_on_partial_buf p hp
      have h2 : extract_message p =
          .ok (some (decFrame h), (rest.map packBytes).flatten) := by
        have : p = packBytes h ++ (rest.map packBytes).flatten := by
          rw [heq]
          simp [List.flatten_cons]
        rw [this]
        exact extract_message_enc h _ (hg h (List.mem_cons_self h rest))
      rw [h1] at h2
      simp at h2
  | cons c cs' ih =>
    intro gs p hg hp heq
    have heq2 : (p ++ c) ++ cs'.flatten = (gs.map packBytes).flatten := by
      rw [← heq]
      simp [List.append_assoc, List.flatten_cons]
    obtain ⟨gs1, gs2, p', hgs, hsq, hpp, hrest⟩ :=
      stream_decompose gs (p ++ c) cs'.flatten hg heq2
    rw [feedChunks]
    have hd : drainAll (p ++ c) = .ok (gs1.map decFrame, p') := by
      rw [hsq]
      exact drainAll_stream gs1 p'
        (fun x hx => hg x (hgs ▸ List.mem_append_left gs2 hx)) hpp
    rw [hd]
    dsimp only
    have hf : feedChunks cs' p' = .ok (gs2.map decFrame, []) :=
      ih gs2 p' (fun x hx => hg x (hgs ▸ List.mem_append_right gs1 hx)) hpp hrest
    rw [hf, hgs]
    simp [List.map_append]

/-- C2 (amended): chunked delivery invariance for valid encoded streams.
For a stream that is the concatenation of packed cleanly-encodable frames,
feeding ANY chunking of it to a fresh `FrameBuffer` and draining after
each `append` yields exactly the decoded frames in order with an empty
final buffer — the same result as feeding the whole stream as one
chunk. -/
theorem c2_chunked_invariance (fs : List Frame) (cs : List Bytes)
    (hclean : ∀ f ∈ fs, encClean f = true)
    (hsplit : cs.flatten = (fs.map packBytes).flatten) :
    feedAll cs = .ok (fs.map decFrame, []) ∧
    feedAll [(fs.map packBytes).flatten] = .ok (fs.map decFrame, []) := by
  constructor
  · exact feedChunks_stream cs fs [] hclean (Or.inl rfl) (by simpa using hsplit)
  · exact feedChunks_stream [(fs.map packBytes).flatten] fs [] hclean
      (Or.inl rfl) (by simp)

/-- C2 (witness): a concrete packed frame split mid-header into two chunks
decodes identically to the one-chunk feed. -/
theorem c2_chunked_invariance_witness :
    feedAll [((packBytes (Frame.mk (some (("SEND").toList)) [] (("hi").toList))).take 7),
             ((packBytes (Frame.mk (some (("SEND").toList)) [] (("hi").toList))).drop 7)] =
      .ok ([Frame.mk (some (("SEND").toList)) [] (("hi").toList)].map decFrame, []) ∧
    feedAll [(([Frame.mk (some (("SEND").toList)) [] (("hi").toList)].map packBytes).flatten)] =
      .ok ([Frame.mk (some (("SEND").toList)) [] (("hi").toList)].map decFrame, []) :=
  c2_chunked_invariance [Frame.mk (some (("SEND").toList)) [] (("hi").toList)]
    [((packBytes (Frame.mk (some (("SEND").toList)) [] (("hi").toList))).take 7),
     ((packBytes (Frame.mk (some (("SEND").toList)) [] (("hi").toList))).drop 7)]
    (by intro f hf
        rw [List.mem_singleton] at hf
        rw [hf]
        decide)
    (by decide)

/-!  Claim C4: what round-tripping through the codec preserves. -/

/-- Is a header value a (byte) string? -/
def isStrVal : HVal → Bool
  | .bs _ => true
  | .iv _ => false

/-- The headers dict with every value rendered to its wire string — what
decoding gives back, since the wire carries only bytes. -/
def mapVals (h : Headers) : Headers :=
  h.map (fun kv => (kv.1, HVal.bs (hvRender kv.2)))

/-- Round-trip cleanliness: a cleanly-encodable frame whose packed header
dict has duplicate-free keys, keys free of newline/colon and stable under
`strip()`, rendered values free of newline and stable under `strip()`, and
whose own header values are strings (`pack` adds the only int,
`content-length`). -/
def rtClean (f : Frame) : Bool :=
  encClean f &&
  decide (((packHeaders f).map Prod.fst).Nodup) &&
  (packHeaders f).all (fun kv =>
    decide (nlC ∉ kv.1) && decide (':' ∉ kv.1) && decide (stripB kv.1 = kv.1) &&
    decide (nlC ∉ hvRender kv.2) &&
    decide (stripB (hvRender kv.2) = hvRender kv.2)) &&
  f.headers.all (fun kv =>
    decide (kv.1 = ("content-length").toList) || isStrVal kv.2)

/-- Python `split(':', 1)` on a line whose key part is colon-free. -/
theorem splitFirstColon_line (k rv : Bytes) (hk : ':' ∉ k) :
    splitFirstColon (k ++ ':' :: rv) = some (k, rv) := by
  rw [splitFirstColon, findIdx_append_elem ':' k rv hk]
  dsimp only
  rw [List.take_left]
  have hform : k ++ ':' :: rv = (k ++ [':']) ++ rv := by simp
  have hlen : (k ++ [':']).length = k.length + 1 := by simp
  rw [hform, ← hlen, List.drop_left]

/-- Python `dictSet` on a fresh key appends. -/
theorem dictSet_fresh (h : Headers) (k : Bytes) (v : HVal)
    (hk : h.any (fun kv => kv.1 = k) = false) :
    dictSet h k v = h ++ [(k, v)] := by
  rw [dictSet, hk]
  rfl

/-- The header block of a non-empty dict is non-empty. -/
theorem headerLines_ne_nil (e : Bytes × HVal) (es : Headers) :
    headerLines (e :: es) ≠ [] := by
  rw [headerLines]
  simp

/-- Dict `packHeaders` always holds at least the content-length entry. -/
theorem packHeaders_ne_nil (f : Frame) : packHeaders f ≠ [] := by
  rw [packHeaders, dictSet]
  by_cases ha : f.headers.any
      (fun kv => kv.1 = ("content-length").toList)
  · rw [if_pos ha]
    intro h
    rw [List.map_eq_nil_iff] at h
    rw [h] at ha
    simp at ha
  · rw [if_neg ha]
    simp

/-- Splitting the serialized header block (final newline removed) back into
its lines. -/
theorem lines_split (es : Headers) (hes : es ≠ [])
    (hcond : ∀ kv ∈ es, nlC ∉ kv.1 ∧ nlC ∉ hvRender kv.2) :
    splitNl ((headerLines es).dropLast) =
      es.map (fun kv => kv.1 ++ ':' :: hvRender kv.2) := by
  induction es with
  | nil => exact absurd rfl hes
  | cons e es' ih =>
    have hline : e.1 ++ [':'] ++ hvRender e.2 ++ [nlC] =
        (e.1 ++ ':' :: hvRender e.2) ++ [nlC] := by simp
    have hlnl : nlC ∉ e.1 ++ ':' :: hvRender e.2 := by
      intro hmem
      rcases List.mem_append.mp hmem with h | h
      · exact (hcond e (List.mem_cons_self e es')).1 h
      · rcases List.mem_cons.mp h with h2 | h2
        · exact absurd h2.symm (by decide)
        · exact (hcond e (List.mem_cons_self e es')).2 h2
    cases es' with
    | nil =>
      rw [headerLines]
      simp only [List.map_cons, List.map_nil, List.flatten_cons,
        List.flatten_nil, List.append_nil]
      rw [hline, List.dropLast_concat, splitNl_no_nl _ hlnl]
    | cons e2 es'' =>
      have hne2 : headerLines (e2 :: es'') ≠ [] := headerLines_ne_nil e2 es''
      have hsplit2 : headerLines (e :: e2 :: es'') =
          (e.1 ++ [':'] ++ hvRender e.2 ++ [nlC]) ++ headerLines (e2 :: es'') := by
        rw [headerLines, headerLines]
        simp [List.flatten_cons]
      rw [hsplit2, List.dropLast_append_of_ne_nil _ hne2, hline,
        List.append_assoc, List.singleton_append,
        splitNl_append_line _ _ hlnl,
        ih (List.cons_ne_nil e2 es'')
          (fun kv hkv => hcond kv (List.mem_cons_of_mem e hkv))]
      rfl

/-- The header-parsing fold over rendered lines with fresh, duplicate-free,
strip-stable keys appends each parsed entry in order. -/
theorem parse_fold (es : Headers) :
    ∀ acc : Headers,
    (∀ kv ∈ es, acc.any (fun x => x.1 = kv.1) = false) →
    ((es.map Prod.fst).Nodup) →
    (∀ kv ∈ es, (':' ∉ kv.1) ∧ stripB kv.1 = kv.1 ∧
      stripB (hvRender kv.2) = hvRender kv.2) →
    (es.map (fun kv => kv.1 ++ ':' :: hvRender kv.2)).foldl parseHeaderLine acc =
      acc ++ mapVals es := by
  induction es with
  | nil =>
    intro acc _ _ _
    simp [mapVals]
  | cons e es' ih =>
    intro acc hfresh hnd hcond
    have hce := hcond e (List.mem_cons_self e es')
    have hstep : parseHeaderLine acc (e.1 ++ ':' :: hvRender e.2) =
        acc ++ [(e.1, HVal.bs (hvRender e.2))] := by
      rw [parseHeaderLine, splitFirstColon_line e.1 (hvRender e.2) hce.1]
      dsimp only
      rw [hce.2.1, hce.2.2,
        dictSet_fresh acc e.1 _ (hfresh e (List.mem_cons_self e es'))]
    simp only [List.map_cons, List.foldl_cons, hstep]
    rw [ih (acc ++ [(e.1, HVal.bs (hvRender e.2))])
      ?_ ?_ (fun kv hkv => hcond kv (List.mem_cons_of_mem e hkv))]
    · simp [mapVals, List.append_assoc]
    · intro kv hkv
      rw [List.any_append]
      have h1 : acc.any (fun x => x.1 = kv.1) = false :=
        hfresh kv (List.mem_cons_of_mem e hkv)
      have h2 : [(e.1, HVal.bs (hvRender e.2))].any (fun x => x.1 = kv.1) = false := by
        simp only [List.any_cons, List.any_nil, Bool.or_false]
        simp only [List.map_cons, List.nodup_cons] at hnd
        have : e.1 ≠ kv.1 := by
          intro he
          exact hnd.1 (he ▸ List.mem_map_of_mem Prod.fst hkv)
        simpa using this
      rw [h1, h2]
      rfl
    · simp only [List.map_cons, List.nodup_cons] at hnd
      exact hnd.2

/-- The header bytes of a packed frame: command, newline, and the header
block minus its final newline. -/
theorem packBytes_take_boundary (f : Frame) (c : Bytes)
    (hcmd : f.command = some c) :
    (packBytes f).take (encBoundary f) =
      c ++ nlC :: (headerLines (packHeaders f)).dropLast := by
  have hshape := packBytes_shape f c hcmd
  obtain ⟨e, es, hpe⟩ :=
    List.exists_cons_of_ne_nil (packHeaders_ne_nil f)
  have hHL : headerLines (packHeaders f) ≠ [] := by
    rw [hpe]
    exact headerLines_ne_nil e es
  obtain ⟨k, hk⟩ : ∃ k, (headerLines (packHeaders f)).length = k + 1 :=
    ⟨(headerLines (packHeaders f)).length - 1,
      by have := List.length_pos.mpr hHL; omega⟩
  have hbnd : encBoundary f = c.length + (k + 1) := by
    rw [encBoundary, hcmd, ← hk]
    rfl
  rw [hshape, hbnd, List.take_append_eq_append_take,
    List.take_of_length_le (by omega)]
  congr 1
  have hz : c.length + (k + 1) - c.length = k + 1 := by omega
  rw [hz, List.take_succ_cons]
  congr 1
  rw [List.take_append_eq_append_take]
  have hz2 : k - (headerLines (packHeaders f)).length = 0 := by omega
  rw [hz2, List.take_zero, List.append_nil, List.dropLast_eq_take, hk]
  rfl

/-- What `extract_message` parses back out of a packed frame's header
bytes: every entry, in order, with its value rendered to wire text. -/
theorem decFrame_headers (f : Frame) (c : Bytes)
    (hcmd : f.command = some c) (hcv : c ∈ VALIDB)
    (hnd : ((packHeaders f).map Prod.fst).Nodup)
    (hcond : ∀ kv ∈ packHeaders f,
      nlC ∉ kv.1 ∧ ':' ∉ kv.1 ∧ stripB kv.1 = kv.1 ∧
      nlC ∉ hvRender kv.2 ∧ stripB (hvRender kv.2) = hvRender kv.2) :
    parseHeaderLines
      ((splitNl (lstripB ((packBytes f).take (encBoundary f)))).drop 1) =
      mapVals (packHeaders f) := by
  rw [packBytes_take_boundary f c hcmd]
  obtain ⟨ch, ct, hshape, hws⟩ := valid_shape c hcv
  rw [hshape, List.cons_append, lstripB_cons_not_ws ch _ hws,
    ← List.cons_append, ← hshape,
    splitNl_append_line c _ (valid_no_nl c hcv),
    lines_split (packHeaders f) (packHeaders_ne_nil f)
      (fun kv hkv => ⟨(hcond kv hkv).1, (hcond kv hkv).2.2.2.1⟩)]
  rw [List.drop_one, List.tail_cons, parseHeaderLines]
  exact parse_fold (packHeaders f) [] (fun kv _ => rfl) hnd
    (fun kv hkv => ⟨(hcond kv hkv).2.1, (hcond kv hkv).2.2.1, (hcond kv hkv).2.2.2.2⟩)

/-- Rendering the packed headers to wire strings is the same as setting
`content-length` to its decimal string, when the caller's own header
values are strings. -/
theorem mapVals_packHeaders (f : Frame)
    (hstr : ∀ kv ∈ f.headers,
      kv.1 = ("content-length").toList ∨ isStrVal kv.2 = true) :
    mapVals (packHeaders f) =
      dictSet f.headers (("content-length").toList)
        (HVal.bs ((toString f.body.length).toList)) := by
  have hid : ∀ kv ∈ f.headers, ¬kv.1 = ("content-length").toList →
      (kv.1, HVal.bs (hvRender kv.2)) = kv := by
    intro kv hkv hk
    rcases hstr kv hkv with h | h
    · exact absurd h hk
    · obtain ⟨k1, v1⟩ := kv
      cases v1 with
      | bs s => rfl
      | iv n => simp [isStrVal] at h
  rw [packHeaders, dictSet, dictSet]
  by_cases ha : f.headers.any (fun kv => kv.1 = ("content-length").toList)
  · rw [if_pos ha, if_pos ha, mapVals, List.map_map]
    apply List.map_congr_left
    intro kv hkv
    by_cases hk : kv.1 = ("content-length").toList
    · simp only [Function.comp_apply, if_pos hk]
      rfl
    · simp only [Function.comp_apply, if_neg hk]
      exact hid kv hkv hk
  · have haf : f.headers.any (fun kv => kv.1 = ("content-length").toList) = false :=
      Bool.eq_false_iff.mpr ha
    rw [if_neg (by rw [haf]; exact Bool.false_ne_true),
      if_neg (by rw [haf]; exact Bool.false_ne_true),
      mapVals, List.map_append]
    congr 1
    · conv_rhs => rw [← List.map_id f.headers]
      apply List.map_congr_left
      intro kv hkv
      have hk : ¬kv.1 = ("content-length").toList := by
        have := List.any_eq_false.mp haf kv hkv
        simpa using this
      exact hid kv hkv hk

/-- C4 (counterexample): `decode(encode(f)) == f` fails even for the plain
frame `Frame('SEND', {}, '')`: `pack` mutates `f.headers['content-length']`
to the int `0`, while decoding yields the string `'0'`, and in Python
`0 != '0'`, so `Frame.__eq__` is false. -/
theorem c4_counterexample :
    extract_message (packBytes (Frame.mk (some (("SEND").toList)) [] [])) =
      .ok (some (Frame.mk (some (("SEND").toList))
        [((("content-length").toList), HVal.bs (("0").toList))] []), []) ∧
    frameEq (Frame.mk (some (("SEND").toList))
        [((("content-length").toList), HVal.bs (("0").toList))] [])
      (packFrame (Frame.mk (some (("SEND").toList)) [] [])) = false :=
  ⟨by decide, by decide⟩

/-- C4 (amended): for a round-trip-clean frame, decoding the packed bytes
consumes them exactly and yields a frame equal (by `Frame.__eq__`) to the
original frame with its `content-length` header as the decimal *string*
`str(len(body))` — rather than the int `len(body)` that `pack` stores. -/
theorem c4_roundtrip_amended (f : Frame) (h : rtClean f = true) :
    extract_message (packBytes f) = .ok (some (decFrame f), []) ∧
    decFrame f = Frame.mk f.command
      (dictSet f.headers (("content-length").toList)
        (HVal.bs ((toString f.body.length).toList))) f.body ∧
    frameEq (decFrame f)
      (Frame.mk f.command
        (dictSet f.headers (("content-length").toList)
          (HVal.bs ((toString f.body.length).toList))) f.body) = true := by
  rw [rtClean] at h
  simp only [Bool.and_eq_true] at h
  obtain ⟨⟨⟨henc, hnd⟩, hall⟩, hstr⟩ := h
  rw [decide_eq_true_eq] at hnd
  obtain ⟨c, hcmd, hcv, _, _⟩ := encClean_spec f henc
  have hcond : ∀ kv ∈ packHeaders f,
      nlC ∉ kv.1 ∧ ':' ∉ kv.1 ∧ stripB kv.1 = kv.1 ∧
      nlC ∉ hvRender kv.2 ∧ stripB (hvRender kv.2) = hvRender kv.2 := by
    intro kv hkv
    have hx := List.all_eq_true.mp hall kv hkv
    simp only [Bool.and_eq_true, decide_eq_true_eq] at hx
    exact ⟨hx.1.1.1.1, hx.1.1.1.2, hx.1.1.2, hx.1.2, hx.2⟩
  have hstr' : ∀ kv ∈ f.headers,
      kv.1 = ("content-length").toList ∨ isStrVal kv.2 = true := by
    intro kv hkv
    have hx := List.all_eq_true.mp hstr kv hkv
    simp only [Bool.or_eq_true, decide_eq_true_eq] at hx
    exact hx
  have hhdrs := decFrame_headers f c hcmd hcv hnd hcond
  have hd2 : decFrame f = Frame.mk f.command
      (dictSet f.headers (("content-length").toList)
        (HVal.bs ((toString f.body.length).toList))) f.body := by
    rw [decFrame, hhdrs, mapVals_packHeaders f hstr']
  refine ⟨?_, hd2, ?_⟩
  · have hx := extract_message_enc f [] henc
    rwa [List.append_nil] at hx
  · rw [hd2]
    have hndH : ((dictSet f.headers (("content-length").toList)
        (HVal.bs ((toString f.body.length).toList))).map Prod.fst).Nodup := by
      rw [← mapVals_packHeaders f hstr', mapVals, List.map_map]
      exact hnd
    rw [frameEq, dictEq_refl _ hndH]
    simp

/-- C4 (witness): a concrete clean frame round-trips up to the
content-length string rendering. -/
theorem c4_roundtrip_amended_witness :
    extract_message (packBytes (Frame.mk (some (("SEND").toList))
        [((("destination").toList), HVal.bs (("/queue/a").toList))] (("hi").toList))) =
      .ok (some (decFrame (Frame.mk (some (("SEND").toList))
        [((("destination").toList), HVal.bs (("/queue/a").toList))] (("hi").toList))), []) ∧
    decFrame (Frame.mk (some (("SEND").toList))
        [((("destination").toList), HVal.bs (("/queue/a").toList))] (("hi").toList)) =
      Frame.mk (some (("SEND").toList))
        (dictSet [((("destination").toList), HVal.bs (("/queue/a").toList))]
          (("content-length").toList)
          (HVal.bs ((toString (("hi").toList).length).toList))) (("hi").toList) ∧
    frameEq (decFrame (Frame.mk (some (("SEND").toList))
        [((("destination").toList), HVal.bs (("/queue/a").toList))] (("hi").toList)))
      (Frame.mk (some (("SEND").toList))
        (dictSet [((("destination").toList), HVal.bs (("/queue/a").toList))]
          (("content-length").toList)
          (HVal.bs ((toString (("hi").toList).length).toList))) (("hi").toList)) = true :=
  c4_roundtrip_amended
    (Frame.mk (some (("SEND").toList))
      [((("destination").toList), HVal.bs (("/queue/a").toList))] (("hi").toList))
    (by decide)

/-!  Claim C5: read-loop frame classification. -/

/-- C5: the classification chain of `listener_forever`.  A MESSAGE frame is
enqueued on the message queue iff its `destination` header is a subscribed
destination (else dropped, no error); RECEIPT, ERROR and CONNECTED frames
go to their queues; every other command (and a `None` command) is
dropped. -/
theorem c5_listener_dispatch (subs : List Bytes) (q : Queues) (f : Frame) :
    (f.command = some (("MESSAGE").toList) →
      inSubs (getattrF f (("destination").toList)) subs = true →
      dispatch subs q f = { q with message := q.message ++ [f] }) ∧
    (f.command = some (("MESSAGE").toList) →
      inSubs (getattrF f (("destination").toList)) subs = false →
      dispatch subs q f = q) ∧
    (f.command = some (("RECEIPT").toList) →
      dispatch subs q f = { q with receipt := q.receipt ++ [f] }) ∧
    (f.command = some (("ERROR").toList) →
      dispatch subs q f = { q with errors := q.errors ++ [f] }) ∧
    (f.command = some (("CONNECTED").toList) →
      dispatch subs q f = { q with connected := q.connected ++ [f] }) ∧
    (∀ c, f.command = some c →
      c ∉ [(("MESSAGE").toList), (("RECEIPT").toList),
           (("ERROR").toList), (("CONNECTED").toList)] →
      dispatch subs q f = q) ∧
    (f.command = none → dispatch subs q f = q) := by
  refine ⟨?_, ?_, ?_, ?_, ?_, ?_, ?_⟩
  · intro hc hm
    rw [dispatch, hc, if_neg (by decide), if_pos rfl, if_pos hm]
  · intro hc hm
    rw [dispatch, hc, if_neg (by decide), if_pos rfl,
      if_neg (by rw [hm]; exact Bool.false_ne_true)]
  · intro hc
    rw [dispatch, hc, if_pos rfl]
  · intro hc
    rw [dispatch, hc, if_neg (by decide), if_neg (by decide), if_pos rfl]
  · intro hc
    rw [dispatch, hc, if_neg (by decide), if_neg (by decide),
      if_neg (by decide), if_pos rfl]
  · intro c hc hnot
    have h1 : ¬(some c = some (("RECEIPT").toList)) := by
      intro h
      exact hnot (by rw [Option.some.injEq] at h; rw [h]; decide)
    have h2 : ¬(some c = some (("MESSAGE").toList)) := by
      intro h
      exact hnot (by rw [Option.some.injEq] at h; rw [h]; decide)
    have h3 : ¬(some c = some (("ERROR").toList)) := by
      intro h
      exact hnot (by rw [Option.some.injEq] at h; rw [h]; decide)
    have h4 : ¬(some c = some (("CONNECTED").toList)) := by
      intro h
      exact hnot (by rw [Option.some.injEq] at h; rw [h]; decide)
    rw [dispatch, hc, if_neg h1, if_neg h2, if_neg h3, if_neg h4]
  · intro hc
    rw [dispatch, hc, if_neg (by decide), if_neg (by decide),
      if_neg (by decide), if_neg (by decide)]

/-- C5 (witness): with subscription `/queue/a`, a MESSAGE for `/queue/a` is
delivered to the message queue and a MESSAGE for `/queue/b` is dropped. -/
theorem c5_listener_dispatch_witness :
    dispatch [("/queue/a").toList] (Queues.mk [] [] [] [])
        (Frame.mk (some (("MESSAGE").toList))
          [((("destination").toList), HVal.bs (("/queue/a").toList))] []) =
      { Queues.mk [] [] [] [] with
        message := [] ++ [Frame.mk (some (("MESSAGE").toList))
          [((("destination").toList), HVal.bs (("/queue/a").toList))] []] } ∧
    dispatch [("/queue/a").toList] (Queues.mk [] [] [] [])
        (Frame.mk (some (("MESSAGE").toList))
          [((("destination").toList), HVal.bs (("/queue/b").toList))] []) =
      Queues.mk [] [] [] [] :=
  ⟨(c5_listener_dispatch [("/queue/a").toList] (Queues.mk [] [] [] [])
      (Frame.mk (some (("MESSAGE").toList))
        [((("destination").toList), HVal.bs (("/queue/a").toList))] [])).1
      rfl (by decide),
   (c5_listener_dispatch [("/queue/a").toList] (Queues.mk [] [] [] [])
      (Frame.mk (some (("MESSAGE").toList))
        [((("destination").toList), HVal.bs (("/queue/b").toList))] [])).2.1
      rfl (by decide)⟩

/-!  Claim C7, amended part: duplicate header keys on decode. -/

/-- The header bytes of a wire frame that repeats the key `k`. -/
def dupHdr (k v1 v2 : Bytes) : Bytes :=
  ("MESSAGE\n").toList ++ (k ++ ':' :: v1) ++ nlC :: (k ++ ':' :: v2)

/-- A terminator-delimited wire frame whose header block carries `k` twice:
`MESSAGE\nk:v1\nk:v2\n\n\x00`. -/
def dupWire (k v1 v2 : Bytes) : Bytes :=
  dupHdr k v1 v2 ++ nlC :: nlC :: [nulC]

/-- C7 (amended): decoding a frame whose header block lists the key `k`
twice retains the LAST occurrence: the parse loop assigns `headers[k] = v`
line by line, so `v2` overwrites `v1`. -/
theorem c7_last_occurrence_wins (k v1 v2 : Bytes)
    (hk1 : ':' ∉ k) (hk2 : nlC ∉ k) (hk3 : stripB k = k)
    (hv1 : nlC ∉ v1) (hv2 : nlC ∉ v2) (hv2s : stripB v2 = v2)
    (hfdn : fdn (dupWire k v1 v2) = some (dupHdr k v1 v2).length)
    (hcl : clSearch ((dupWire k v1 v2).take (dupHdr k v1 v2).length) = none)
    (hnul : (dupWire k v1 v2).findIdx? (fun c => c = nulC) =
      some ((dupHdr k v1 v2).length + 2)) :
    extract_message (dupWire k v1 v2) =
      .ok (some (Frame.mk (some (("MESSAGE").toList)) [(k, HVal.bs v2)] []), []) := by
  have hmsgnl : ("MESSAGE\n").toList = ("MESSAGE").toList ++ [nlC] := by decide
  have hhdr : dupHdr k v1 v2 = ("MESSAGE").toList ++
      nlC :: ((k ++ ':' :: v1) ++ nlC :: (k ++ ':' :: v2)) := by
    rw [dupHdr, hmsgnl]
    simp [List.append_assoc]
  have hform : dupWire k v1 v2 = ("MESSAGE").toList ++
      nlC :: ((k ++ ':' :: v1) ++ nlC :: ((k ++ ':' :: v2) ++ nlC :: nlC :: [nulC])) := by
    rw [dupWire, hhdr]
    simp [List.append_assoc]
  have hmem : (("MESSAGE").toList) ∈ VALIDB := by decide
  have hsync : sync_buffer (dupWire k v1 v2) = dupWire k v1 v2 := by
    rw [hform]
    exact sync_buffer_valid_head _ _ hmem
  have hfind : find_message_bytes (dupWire k v1 v2) (dupWire k v1 v2) =
      ((dupHdr k v1 v2).length + 2 + 1, (dupHdr k v1 v2).length) := by
    rw [find_message_bytes, hfdn]
    dsimp only
    rw [hcl]
    dsimp only
    rw [hnul]
  have hwlen : (dupWire k v1 v2).length = (dupHdr k v1 v2).length + 3 := by
    rw [dupWire]
    simp
  have htakeall : (dupWire k v1 v2).take ((dupHdr k v1 v2).length + 2 + 1) =
      dupWire k v1 v2 :=
    List.take_of_length_le (by omega)
  have hdropall : (dupWire k v1 v2).drop ((dupHdr k v1 v2).length + 2 + 1) = [] :=
    List.drop_eq_nil_of_le (by omega)
  have htakehdr : (dupWire k v1 v2).take (dupHdr k v1 v2).length = dupHdr k v1 v2 := by
    rw [dupWire, List.take_append_eq_append_take, Nat.sub_self, List.take_zero,
      List.append_nil, List.take_length]
  have hL1nl : nlC ∉ k ++ ':' :: v1 := by
    intro hmem2
    rcases List.mem_append.mp hmem2 with h | h
    · exact hk2 h
    · rcases List.mem_cons.mp h with h2 | h2
      · exact absurd h2.symm (by decide)
      · exact hv1 h2
  have hL2nl : nlC ∉ k ++ ':' :: v2 := by
    intro hmem2
    rcases List.mem_append.mp hmem2 with h | h
    · exact hk2 h
    · rcases List.mem_cons.mp h with h2 | h2
      · exact absurd h2.symm (by decide)
      · exact hv2 h2
  have hsplit : splitNl (lstripB (dupHdr k v1 v2)) =
      ("MESSAGE").toList :: (k ++ ':' :: v1) :: [k ++ ':' :: v2] := by
    obtain ⟨ch, ct, hsh, hws⟩ := valid_shape (("MESSAGE").toList) hmem
    rw [hhdr, hsh, List.cons_append, lstripB_cons_not_ws ch _ hws,
      ← List.cons_append, ← hsh,
      splitNl_append_line _ _ (valid_no_nl _ hmem),
      splitNl_append_line _ _ hL1nl, splitNl_no_nl _ hL2nl]
  have hp1 : parseHeaderLine [] (k ++ ':' :: v1) = [(k, HVal.bs (stripB v1))] := by
    rw [parseHeaderLine, splitFirstColon_line _ _ hk1]
    dsimp only
    rw [hk3]
    rfl
  have hp2 : parseHeaderLine [(k, HVal.bs (stripB v1))] (k ++ ':' :: v2) =
      [(k, HVal.bs v2)] := by
    rw [parseHeaderLine, splitFirstColon_line _ _ hk1]
    dsimp only
    rw [hk3, hv2s, dictSet, if_pos (by simp)]
    simp
  have htake2 : (dupWire k v1 v2).take ((dupHdr k v1 v2).length + 2) =
      dupHdr k v1 v2 ++ [nlC, nlC] := by
    have hw2 : dupWire k v1 v2 = (dupHdr k v1 v2 ++ [nlC, nlC]) ++ [nulC] := by
      rw [dupWire]
      simp
    have hl2 : (dupHdr k v1 v2 ++ [nlC, nlC]).length =
        (dupHdr k v1 v2).length + 2 := by simp
    rw [hw2, ← hl2, List.take_left]
  rw [extract_message]
  dsimp only
  rw [hsync, hfind,
    if_neg (show ¬(((dupHdr k v1 v2).length + 2 + 1,
      (dupHdr k v1 v2).length).1 = 0) from Nat.succ_ne_zero _)]
  dsimp only
  rw [parseMsg]
  rw [htakeall, hdropall, htakehdr, hsplit]
  rw [hwlen]
  have harith : (dupHdr k v1 v2).length + 3 - 1 = (dupHdr k v1 v2).length + 2 := by
    omega
  rw [harith, htake2]
  have hbody : (dupHdr k v1 v2 ++ [nlC, nlC]).drop ((dupHdr k v1 v2).length + 2) = [] :=
    List.drop_eq_nil_of_le (by simp)
  rw [hbody, parseHeaderLines]
  rw [mkFrame]
  simp only [List.headD_cons, List.drop_one, List.tail_cons,
    List.foldl_cons, List.foldl_nil, hp1, hp2]
  rw [show upperB (("MESSAGE").toList) = ("MESSAGE").toList from by decide,
    if_pos hmem]

/-- C7 (amended, witness): decoding `MESSAGE\nx:1\nx:2\n\n\x00` keeps
`x: '2'`. -/
theorem c7_last_occurrence_wins_witness :
    extract_message (dupWire (("x").toList) (("1").toList) (("2").toList)) =
      .ok (some (Frame.mk (some (("MESSAGE").toList))
        [((("x").toList), HVal.bs (("2").toList))] []), []) :=
  c7_last_occurrence_wins (("x").toList) (("1").toList) (("2").toList)
    (by decide) (by decide) (by decide) (by decide) (by decide) (by decide)
    (by decide) (by decide) (by decide)
